import Mathlib

/-!
Verification of the schema/property engine of go-scim: the `complexProperty`
container (src/core/prop/complex.go) and the `Attribute` schema node.
Go values of type `interface{}` produced by JSON decoding are embedded as the
tagged union `Value`; machine `uint64` arithmetic is embedded as `Nat` with
explicit reduction modulo `2 ^ 64`.
-/

/-- Generic loosely-typed value (Go `interface{}` as produced by JSON
decoding): null, scalar, sequence, or string-keyed mapping. A Go
`map[string]interface{}` is embedded as an association list in some
iteration order. -/
inductive Value where
  | null : Value
  | str (s : String) : Value
  | int (n : Int) : Value
  | bool (b : Bool) : Value
  | arr (elems : List Value) : Value
  | map (entries : List (String × Value)) : Value

/-- Modelled from the spec: the error kinds of the missing `errors` package.
`invalidValue` carries the offending value's observed Go type name and the
attribute's schema path (the two format arguments of
`errors.InvalidValue("value of type %T is incompatible with attribute '%s'", ...)`);
`internal` carries the message of `errors.Internal`. -/
inductive Err where
  | invalidValue (typeName : String) (path : String) : Err
  | internal (msg : String) : Err
deriving DecidableEq

/-- Go type name of a `Value`, as the `%T` format verb prints it for an
`interface{}` holding that value. -/
def goTypeName : Value → String
  | .null => "<nil>"
  | .str _ => "string"
  | .int _ => "int64"
  | .bool _ => "bool"
  | .arr _ => "[]interface {}"
  | .map _ => "map[string]interface {}"

/-- Whether a value is a mapping from string to generic value (the Go type
assertion `value.(map[string]interface{})` succeeds). -/
def isMappingV : Value → Bool
  | .map _ => true
  | _ => false

mutual
/-- Structural equality of generic values. -/
def valueEq : Value → Value → Bool
  | .null, .null => true
  | .str s, .str s' => s == s'
  | .int n, .int n' => n == n'
  | .bool b, .bool b' => b == b'
  | .arr l, .arr l' => valueListEq l l'
  | .map m, .map m' => valueEntriesEq m m'
  | _, _ => false

/-- Pointwise `valueEq` on lists. -/
def valueListEq : List Value → List Value → Bool
  | [], [] => true
  | v :: l, v' :: l' => valueEq v v' && valueListEq l l'
  | _, _ => false

/-- Pointwise `valueEq` on entry lists (keys compared exactly). -/
def valueEntriesEq : List (String × Value) → List (String × Value) → Bool
  | [], [] => true
  | (k, v) :: m, (k', v') :: m' => k == k' && valueEq v v' && valueEntriesEq m m'
  | _, _ => false
end

/-- FNV-1a 64-bit offset basis, as in Go's `hash/fnv`. -/
def fnvOffsetBasis : Nat := 14695981039346656037

/-- FNV-1a 64-bit prime, as in Go's `hash/fnv`. -/
def fnvPrime : Nat := 1099511628211

/-- One step of streaming FNV-1a 64: xor in a byte, multiply by the prime,
reduce modulo `2 ^ 64`. -/
def fnv1aStep (h b : Nat) : Nat := ((h ^^^ b) * fnvPrime) % (2 ^ 64)

/-- Feed a list of bytes into a streaming FNV-1a 64 state `h`
(Go's `hash.Hash64.Write`). -/
def fnv1aBytes (h : Nat) (bs : List Nat) : Nat := bs.foldl fnv1aStep h

/-- UTF-8 encoding of one code point, as Go produces for `[]byte(string)`. -/
def utf8Bytes (n : Nat) : List Nat :=
  if n < 0x80 then [n]
  else if n < 0x800 then
    [0xC0 ||| (n >>> 6), 0x80 ||| (n &&& 0x3F)]
  else if n < 0x10000 then
    [0xE0 ||| (n >>> 12), 0x80 ||| ((n >>> 6) &&& 0x3F), 0x80 ||| (n &&& 0x3F)]
  else
    [0xF0 ||| (n >>> 18), 0x80 ||| ((n >>> 12) &&& 0x3F),
     0x80 ||| ((n >>> 6) &&& 0x3F), 0x80 ||| (n &&& 0x3F)]

/-- Bytes of a string (Go `[]byte(s)`: the UTF-8 encoding, exact bytes). -/
def strBytes (s : String) : List Nat := s.data.foldr (fun c acc => utf8Bytes c.toNat ++ acc) []

/-- Little-endian encoding of a 64-bit value into 8 bytes
(Go `binary.LittleEndian.PutUint64`). -/
def le64 (n : Nat) : List Nat := (List.range 8).map (fun i => n / 256 ^ i % 256)


/-- Lower-casing of one character (Go `strings.ToLower` on the ASCII range;
the modelled schemas use ASCII attribute names and keys). -/
def lowerChar (c : Char) : Char :=
  if 65 ≤ c.toNat ∧ c.toNat ≤ 90 then Char.ofNat (c.toNat + 32) else c

/-- Lower-casing of a string (Go `strings.ToLower`). -/
def lowerStr (s : String) : String := ⟨s.data.map lowerChar⟩


/-- Modelled from the spec: the `core.Attribute` schema node consumed by
`complexProperty` (its Go file is not under src/; only its use sites are).
Fields are the ones the complex property code reads: `Name()`, `Type()`
(here `typ`, one of the protocol type names such as "string" or "complex"),
`MultiValued()`, `CaseExact()`, the metadata identity flag backing
`IsIdentity()`, the schema `Path()`, and the ordered `SubAttributes`. -/
inductive CoreAttribute where
  | mk (name : String) (typ : String) (multiValued : Bool) (caseExact : Bool)
      (identity : Bool) (path : String) (subAttributes : List CoreAttribute)

/-- Name of the attribute (Go `attr.Name()`). -/
def CoreAttribute.name : CoreAttribute → String
  | .mk n _ _ _ _ _ _ => n

/-- Declared type of the attribute (Go `attr.Type()`). -/
def CoreAttribute.typ : CoreAttribute → String
  | .mk _ t _ _ _ _ _ => t

/-- Whether the attribute is multi-valued (Go `attr.MultiValued()`). -/
def CoreAttribute.multiValued : CoreAttribute → Bool
  | .mk _ _ mv _ _ _ _ => mv

/-- Whether string comparison is case-exact (Go `attr.CaseExact()`). -/
def CoreAttribute.caseExact : CoreAttribute → Bool
  | .mk _ _ _ ce _ _ _ => ce

/-- Whether this attribute is flagged identity in its metadata
(Go `attr.IsIdentity()`). -/
def CoreAttribute.identity : CoreAttribute → Bool
  | .mk _ _ _ _ id _ _ => id

/-- Schema path of the attribute (Go `attr.Path()`), e.g. "name.givenName". -/
def CoreAttribute.path : CoreAttribute → String
  | .mk _ _ _ _ _ p _ => p

/-- Ordered sub-attributes of the attribute (Go `attr.SubAttributes`). -/
def CoreAttribute.subAttributes : CoreAttribute → List CoreAttribute
  | .mk _ _ _ _ _ _ subs => subs

/-- Whether any sub-attribute is flagged identity
(Go `attr.HasIdentitySubAttributes()`). -/
def CoreAttribute.hasIdentitySubAttributes (a : CoreAttribute) : Bool :=
  a.subAttributes.any (fun s => s.identity)

mutual
/-- Modelled from the spec: schema equality of attributes (Go `attr.Equals`,
not under src/) as structural equality of all modelled fields. -/
def coreAttrEq : CoreAttribute → CoreAttribute → Bool
  | .mk n t mv ce id p subs, .mk n' t' mv' ce' id' p' subs' =>
    n == n' && t == t' && mv == mv' && ce == ce' && id == id' && p == p' &&
      coreAttrListEq subs subs'

/-- Pointwise `coreAttrEq` on lists of attributes. -/
def coreAttrListEq : List CoreAttribute → List CoreAttribute → Bool
  | [], [] => true
  | a :: as, b :: bs => coreAttrEq a b && coreAttrListEq as bs
  | _, _ => false
end

/-- Property value node: a string leaf holding an optional scalar and a
touched flag (leaf kinds are not under src/; the string leaf is modelled
from the spec), or a `complexProperty` holding its attribute, the ordered
`subProps`, and the cached `hash` field (0 when never computed, the Go
zero value). -/
inductive Property where
  | str (attr : CoreAttribute) (value : Option String) (touched : Bool) : Property
  | complex (attr : CoreAttribute) (subProps : List Property) (hashCache : Nat) : Property

/-- Attribute of a property (the `Attribute()` method). -/
def attrOf : Property → CoreAttribute
  | .str a _ _ => a
  | .complex a _ _ => a

mutual
/-- `IsUnassigned`: a string leaf with no value, or a complex property all
of whose sub-properties are unassigned. -/
def isUnassigned : Property → Bool
  | .str _ v _ => v.isNone
  | .complex _ subs _ => allUnassigned subs

/-- Conjunction of `isUnassigned` over a list of properties. -/
def allUnassigned : List Property → Bool
  | [] => true
  | c :: rest => isUnassigned c && allUnassigned rest
end

/-- Modelled from the spec: hash of a string leaf (leaf code not under
src/): a digest of the type tag and the canonicalized value, case-folded
unless the attribute is case-exact. -/
def strHash (a : CoreAttribute) (v : Option String) : Nat :=
  fnv1aBytes fnvOffsetBasis
    (strBytes "string" ++
      match v with
      | none => []
      | some s => strBytes (if a.caseExact then s else lowerStr s))

mutual
/-- `Hash()`: the cached hash if already computed (non-zero), otherwise the
freshly computed digest (`computeHash` starts from `fnv.New64a()`, the
FNV-1a offset basis, with `hasIdentity := p.attr.HasIdentitySubAttributes()`);
string leaves hash their canonicalized value. -/
def hashOf : Property → Nat
  | .str a v _ => strHash a v
  | .complex a subs h =>
    if h ≠ 0 then h
    else computeHashGo a.hasIdentitySubAttributes fnvOffsetBasis subs

/-- The `ForEachChild` loop body of `computeHash`: skip a child when
`hasIdentity` holds and the child's attribute is not flagged identity;
otherwise write the child's attribute name bytes, then, unless the child is
unassigned, the child's own hash as 8 little-endian bytes. -/
def computeHashGo (hasId : Bool) (h : Nat) : List Property → Nat
  | [] => h
  | c :: rest =>
    if hasId && !(attrOf c).identity then computeHashGo hasId h rest
    else
      let h1 := fnv1aBytes h (strBytes (attrOf c).name)
      let h2 := if isUnassigned c then h1 else fnv1aBytes h1 (le64 (hashOf c))
      computeHashGo hasId h2 rest
end

/-- The digest `computeHash` stores: the loop run over all children from
the FNV-1a offset basis. -/
def computeHashVal (a : CoreAttribute) (subs : List Property) : Nat :=
  computeHashGo a.hasIdentitySubAttributes fnvOffsetBasis subs

mutual
/-- `Raw()`: a string leaf yields its scalar or null; a complex property
yields the mapping from each child's attribute name to the child's raw
value (child iteration order). -/
def rawOf : Property → Value
  | .str _ v _ =>
    match v with
    | some s => .str s
    | none => .null
  | .complex _ subs _ => .map (rawEntries subs)

/-- The entry list `Raw()` builds over the children of a complex property. -/
def rawEntries : List Property → List (String × Value)
  | [] => []
  | c :: rest => ((attrOf c).name, rawOf c) :: rawEntries rest
end

/-- The `nameIndex` lookup: the Go map from lower-cased sub-attribute name
to index in `subProps` is built by iterating the children in order, a later
duplicate overwriting an earlier one; looking up key `k` lower-cases it
first (`p.nameIndex[strings.ToLower(k)]`). -/
def lookupIdx : List Property → String → Option Nat
  | [], _ => none
  | c :: rest, k =>
    match lookupIdx rest k with
    | some i => some (i + 1)
    | none => if lowerStr (attrOf c).name == lowerStr k then some 0 else none

mutual
/-- `Add(value)` returning the error (if any) and the state the receiver is
left in. A string leaf (modelled from the spec, leaf code not under src/)
treats null as no value supplied, stores a string scalar marking itself
touched, and rejects any other value with `InvalidValue`. A complex
property returns immediately on null; on a mapping it runs the
`for k, v := range m` loop and recomputes its hash on success; any other
value is rejected with `InvalidValue` carrying the observed type and the
attribute's path. -/
def addProp : Property → Value → Option Err × Property
  | .str a v t, .null => (none, .str a v t)
  | .str a _ t, .str s => (none, .str a (some s) true)
  | .str a v t, w => (some (.invalidValue (goTypeName w) a.path), .str a v t)
  | .complex a subs h, .null => (none, .complex a subs h)
  | .complex a subs h, .map m =>
    match addEntries subs m with
    | (some e, subs') => (some e, .complex a subs' h)
    | (none, subs') => (none, .complex a subs' (computeHashVal a subs'))
  | .complex a subs h, w => (some (.invalidValue (goTypeName w) a.path), .complex a subs h)

/-- The `for k, v := range m` loop of complex `Add`: resolve each key
case-insensitively through `nameIndex`, skip unknown keys, delegate
recognized keys to the child's `Add` (`p.subProps[i].Add(v)`, the updated
child written back to slot `i`), returning early on a child error.
`lookupIdx` only produces indices of `subs`, so the out-of-range case is
unreachable. -/
def addEntries : List Property → List (String × Value) → Option Err × List Property
  | subs, [] => (none, subs)
  | subs, (k, v) :: rest =>
    match lookupIdx subs k with
    | none => addEntries subs rest
    | some i =>
      match subs[i]? with
      | none => addEntries subs rest
      | some c =>
        match addProp c v with
        | (some e, c') => (some e, subs.set i c')
        | (none, c') => addEntries (subs.set i c') rest
end

mutual
/-- `Delete()` returning the error (if any) and the resulting state: a
string leaf clears its value, marking itself touched if it was assigned
(modelled from the spec); a complex property deletes every child in order,
stopping at the first child error, and recomputes its hash on success. -/
def deleteProp : Property → Option Err × Property
  | .str a v t => (none, .str a none (t || v.isSome))
  | .complex a subs h =>
    match deleteList subs with
    | (some e, subs') => (some e, .complex a subs' h)
    | (none, subs') => (none, .complex a subs' (computeHashVal a subs'))

/-- The child loop of complex `Delete`. -/
def deleteList : List Property → Option Err × List Property
  | [] => (none, [])
  | c :: rest =>
    match deleteProp c with
    | (some e, c') => (some e, c' :: rest)
    | (none, c') =>
      match deleteList rest with
      | (e, rest') => (e, c' :: rest')
end

/-- `Replace(value)`: null returns immediately with no error and no state
change; otherwise `Delete()` then `Add(value)`, each returned error
propagated as-is (the `recover` in the Go code converts only a panic, and
no step of this model panics). A string leaf (modelled from the spec)
restores its pre-`Add` unassigned state when the `Add` step fails. -/
def replaceProp : Property → Value → Option Err × Property
  | p, .null => (none, p)
  | p, v =>
    match deleteProp p with
    | (some e, p') => (some e, p')
    | (none, p') => addProp p' v

/-- `Matches(another)` where both the receiver and the argument are complex
properties: schema equality of the attributes, then child counts, then
`Hash()` against `Hash()`. -/
def complexMatches (a : CoreAttribute) (subs : List Property) (h : Nat)
    (a' : CoreAttribute) (subs' : List Property) (h' : Nat) : Bool :=
  if !(coreAttrEq a a') then false
  else if subs.length != subs'.length then false
  else hashOf (.complex a subs h) == hashOf (.complex a' subs' h')

/-- The error every relational operator of a complex property returns
(`errors.Internal("incompatible operation")`). -/
def errIncompatibleOp : Err := .internal "incompatible operation"

/-- `EqualsTo` on a complex property: no verdict, always the incompatible
operation error (Go returns the `bool` zero value alongside it). -/
def complexEqualsTo (p : Property) (v : Value) : Bool × Option Err :=
  (false, some errIncompatibleOp)

/-- `StartsWith` on a complex property: always the incompatible operation
error. -/
def complexStartsWith (p : Property) (s : String) : Bool × Option Err :=
  (false, some errIncompatibleOp)

/-- `EndsWith` on a complex property: always the incompatible operation
error. -/
def complexEndsWith (p : Property) (s : String) : Bool × Option Err :=
  (false, some errIncompatibleOp)

/-- `Contains` on a complex property: always the incompatible operation
error. -/
def complexContains (p : Property) (s : String) : Bool × Option Err :=
  (false, some errIncompatibleOp)

/-- `GreaterThan` on a complex property: always the incompatible operation
error. -/
def complexGreaterThan (p : Property) (v : Value) : Bool × Option Err :=
  (false, some errIncompatibleOp)

/-- `LessThan` on a complex property: always the incompatible operation
error. -/
def complexLessThan (p : Property) (v : Value) : Bool × Option Err :=
  (false, some errIncompatibleOp)

mutual
/-- The property factory (`NewComplex` / the leaf constructors): a singular
complex attribute yields an unassigned complex property over children
built from its sub-attributes in order, with hash cache 0 (the Go zero
value); any other modelled attribute yields an unassigned string leaf. -/
def newProp : CoreAttribute → Property
  | .mk n t mv ce id p subs =>
    if t == "complex" && !mv then
      .complex (.mk n t mv ce id p subs) (newPropList subs) 0
    else
      .str (.mk n t mv ce id p subs) none false

/-- Children built from a list of sub-attributes in declaration order. -/
def newPropList : List CoreAttribute → List Property
  | [] => []
  | a :: rest => newProp a :: newPropList rest
end

/-- Modelled from the spec: the `Metadata` side-channel annotation type
referenced by `Attribute` (its Go file is not under src/); it carries
out-of-band flags such as the identity marker and is attached by
reference. -/
structure Metadata where
  isIdentityKey : Bool
deriving DecidableEq

/-- SCIM attribute schema node, embedding the `Attribute` struct of the
`core` package file under src/ field by field (`Metadata` is a nilable
pointer, embedded as `Option Metadata`). -/
inductive Attribute where
  | mk (name : String) (description : String) (typ : String)
      (subAttributes : List Attribute) (canonicalValues : List String)
      (multiValued : Bool) (required : Bool) (caseExact : Bool)
      (mutability : String) (returned : String) (uniqueness : String)
      (referenceTypes : List String) (metadata : Option Metadata)

/-- `Name` field. -/
def Attribute.name : Attribute → String
  | .mk n _ _ _ _ _ _ _ _ _ _ _ _ => n

/-- `Description` field. -/
def Attribute.description : Attribute → String
  | .mk _ d _ _ _ _ _ _ _ _ _ _ _ => d

/-- `Type` field. -/
def Attribute.typ : Attribute → String
  | .mk _ _ t _ _ _ _ _ _ _ _ _ _ => t

/-- `SubAttributes` field. -/
def Attribute.subAttributes : Attribute → List Attribute
  | .mk _ _ _ subs _ _ _ _ _ _ _ _ _ => subs

/-- `CanonicalValues` field. -/
def Attribute.canonicalValues : Attribute → List String
  | .mk _ _ _ _ cv _ _ _ _ _ _ _ _ => cv

/-- `MultiValued` field. -/
def Attribute.multiValued : Attribute → Bool
  | .mk _ _ _ _ _ mv _ _ _ _ _ _ _ => mv

/-- `Required` field. -/
def Attribute.required : Attribute → Bool
  | .mk _ _ _ _ _ _ rq _ _ _ _ _ _ => rq

/-- `CaseExact` field. -/
def Attribute.caseExact : Attribute → Bool
  | .mk _ _ _ _ _ _ _ ce _ _ _ _ _ => ce

/-- `Mutability` field. -/
def Attribute.mutability : Attribute → String
  | .mk _ _ _ _ _ _ _ _ mu _ _ _ _ => mu

/-- `Returned` field. -/
def Attribute.returned : Attribute → String
  | .mk _ _ _ _ _ _ _ _ _ re _ _ _ => re

/-- `Uniqueness` field. -/
def Attribute.uniqueness : Attribute → String
  | .mk _ _ _ _ _ _ _ _ _ _ un _ _ => un

/-- `ReferenceTypes` field. -/
def Attribute.referenceTypes : Attribute → List String
  | .mk _ _ _ _ _ _ _ _ _ _ _ rt _ => rt

/-- `Metadata` field (a nilable pointer, so an `Option`). -/
def Attribute.metadata : Attribute → Option Metadata
  | .mk _ _ _ _ _ _ _ _ _ _ _ _ md => md

/-- `ToSingleValued`: on a nil receiver return nil; if the attribute is not
multi-valued return the receiver itself; otherwise rebuild every field
with `MultiValued` set to false, the `SubAttributes`, `CanonicalValues`,
`ReferenceTypes` and `Metadata` fields taken from the receiver unchanged
(shared, not deep-copied). -/
def toSingleValued : Option Attribute → Option Attribute
  | none => none
  | some (.mk n d t subs cv mv rq ce mu re un rt md) =>
    if !mv then some (.mk n d t subs cv mv rq ce mu re un rt md)
    else some (.mk n d t subs cv false rq ce mu re un rt md)

/-- `ToOptional`: on a nil receiver return nil; if the attribute is not
required return the receiver itself; otherwise rebuild every field with
`Required` set to false, the `SubAttributes`, `CanonicalValues`,
`ReferenceTypes` and `Metadata` fields taken from the receiver unchanged
(shared, not deep-copied). -/
def toOptional : Option Attribute → Option Attribute
  | none => none
  | some (.mk n d t subs cv mv rq ce mu re un rt md) =>
    if !rq then some (.mk n d t subs cv mv rq ce mu re un rt md)
    else some (.mk n d t subs cv mv false ce mu re un rt md)

/-- Spec-side description of the hash input (for comparison with
`computeHashVal`): iterate children in schema-declared order, keep only
identity-flagged children when any sub-attribute is flagged identity, and
concatenate, per kept child, the exact bytes of its attribute name
followed — only if the child is not unassigned — by its own hash encoded
as 8 bytes little-endian. -/
def specHashStream (a : CoreAttribute) (subs : List Property) : List Nat :=
  (if a.hasIdentitySubAttributes then subs.filter (fun c => (attrOf c).identity)
   else subs).foldr
    (fun c acc =>
      strBytes (attrOf c).name ++
        (if isUnassigned c then [] else le64 (hashOf c)) ++ acc)
    []

/-- Distinctness check on a list of strings. -/
def nodupBool : List String → Bool
  | [] => true
  | x :: rest => !(rest.contains x) && nodupBool rest

/-- First sub-attribute whose name matches `k` case-insensitively. -/
def findAttr (subs : List CoreAttribute) (k : String) : Option CoreAttribute :=
  subs.find? (fun s => lowerStr s.name == lowerStr k)

mutual
/-- Well-formedness of an attribute for this embedding: single-valued, and
either a complex attribute with well-formed sub-attributes whose
lower-cased names are pairwise distinct, or a string attribute without
sub-attributes. -/
def attrWF : CoreAttribute → Bool
  | .mk n t mv ce id p subs =>
    !mv &&
      (if t == "complex" then
        attrListWF subs && nodupBool (subs.map (fun s => lowerStr s.name))
      else t == "string" && subs.isEmpty)

/-- Conjunction of `attrWF` over a list. -/
def attrListWF : List CoreAttribute → Bool
  | [] => true
  | a :: rest => attrWF a && attrListWF rest
end

/-- The lower-cased keys of the entries of `m` recognized by some
sub-attribute in `subs`. -/
def recognizedKeys (subs : List CoreAttribute) (m : List (String × Value)) : List String :=
  (m.filter (fun kv => (findAttr subs kv.1).isSome)).map (fun kv => lowerStr kv.1)

mutual
/-- Spec-side well-formed generic value for an attribute: a string scalar
for a string attribute; for a complex attribute, a mapping whose
recognized entries have pairwise-distinct lower-cased keys and carry
well-formed values for their sub-attributes (unknown keys are
unconstrained — they are dropped). -/
def wellFormed : CoreAttribute → Value → Bool
  | a, .str _ => a.typ == "string"
  | a, .map m =>
    a.typ == "complex" && entriesWF a.subAttributes m &&
      nodupBool (recognizedKeys a.subAttributes m)
  | _, _ => false

/-- Well-formedness of the entries of a mapping against sub-attributes. -/
def entriesWF : List CoreAttribute → List (String × Value) → Bool
  | _, [] => true
  | subs, (k, w) :: rest =>
    (match findAttr subs k with
     | some sub => wellFormed sub w
     | none => true) &&
      entriesWF subs rest
end

mutual
/-- `Raw()` of a freshly constructed, unassigned property of an attribute:
null for a string attribute, and for a singular complex attribute the
mapping sending every sub-attribute name to its own empty raw value. -/
def emptyRaw : CoreAttribute → Value
  | .mk n t mv ce id p subs =>
    if t == "complex" && !mv then .map (emptyRawEntries subs) else .null

/-- Entry list of `emptyRaw` over sub-attributes. -/
def emptyRawEntries : List CoreAttribute → List (String × Value)
  | [] => []
  | a :: rest => (a.name, emptyRaw a) :: emptyRawEntries rest
end

/-- Value of the (first) entry of `m` whose key resolves case-insensitively
to the sub-attribute `sub`. -/
def resolveEntry (m : List (String × Value)) (sub : CoreAttribute) : Option Value :=
  (m.find? (fun kv => lowerStr kv.1 == lowerStr sub.name)).map (fun kv => kv.2)

mutual
/-- Spec-side normalization of a well-formed value (the representative of
the protocol's equality class the round-trip is stated against): scalars
are kept; a mapping for a complex attribute becomes the mapping over all
sub-attributes in schema order, each key the sub-attribute's declared
name, bound to the normalized value of the entry resolving to it
case-insensitively, or to the empty raw value when no entry does; unknown
keys are dropped. -/
def specNormalize : CoreAttribute → Value → Value
  | .mk n t mv ce id p subs, v =>
    if t == "complex" then
      match v with
      | .map m => .map (normEntries subs m)
      | _ => v
    else v

/-- Entry list of `specNormalize` over sub-attributes. -/
def normEntries : List CoreAttribute → List (String × Value) → List (String × Value)
  | [], _ => []
  | sub :: rest, m =>
    (sub.name,
      match resolveEntry m sub with
      | some w => specNormalize sub w
      | none => emptyRaw sub) ::
      normEntries rest m
end

/-- Value of the first entry of `m` whose key resolves through `lookupIdx`
to child index `j`. -/
def entryFor (cs : List Property) : List (String × Value) → Nat → Option Value
  | [], _ => none
  | (k, w) :: rest, j => if lookupIdx cs k = some j then some w else entryFor cs rest j

/-- The lower-cased keys of the entries of `m` recognized by `lookupIdx`
over the children `cs`. -/
def recognizedKeysP (cs : List Property) (m : List (String × Value)) : List String :=
  (m.filter (fun kv => (lookupIdx cs kv.1).isSome)).map (fun kv => lowerStr kv.1)

/-- Lower-cased names of the sub-attributes. -/
def lowNames (subs : List CoreAttribute) : List String :=
  subs.map (fun s => lowerStr s.name)

/-- Recursive form of the spec's hash byte stream, used to relate the
threaded loop of `computeHashGo` to `specHashStream`. -/
def streamGo (hasId : Bool) : List Property → List Nat
  | [] => []
  | c :: rest =>
    if hasId && !(attrOf c).identity then streamGo hasId rest
    else
      strBytes (attrOf c).name ++
        (if isUnassigned c then [] else le64 (hashOf c)) ++ streamGo hasId rest

/-- Concrete fixture: the `givenName` string sub-attribute. -/
def exGiven : CoreAttribute :=
  .mk "givenName" "string" false false false "name.givenName" []

/-- Concrete fixture: the `familyName` string sub-attribute. -/
def exFamily : CoreAttribute :=
  .mk "familyName" "string" false false false "name.familyName" []

/-- Concrete fixture: the singular complex `name` attribute. -/
def exName : CoreAttribute :=
  .mk "name" "complex" false false false "name" [exGiven, exFamily]

/-- Concrete fixture: a multi-valued, required `emails` schema attribute. -/
def exEmails : Attribute :=
  .mk "emails" "Email addresses" "string" [] ["work", "home"] true true false
    "readWrite" "default" "none" [] (some ⟨false⟩)

/-!
Theorems. The lemmas `valueEq_iff` and `coreAttrEq_iff` connect the
executable equality functions to propositional equality; the remaining
theorems settle the specification claims.
-/

mutual
/-- `valueEq` decides propositional equality. -/
theorem valueEq_iff : ∀ v w : Value, valueEq v w = true ↔ v = w
  | .null, .null => by simp [valueEq]
  | .str s, .str s' => by simp [valueEq]
  | .int n, .int n' => by simp [valueEq]
  | .bool b, .bool b' => by simp [valueEq]
  | .arr l, .arr l' => by
    simp only [valueEq, Value.arr.injEq]
    exact valueListEq_iff l l'
  | .map m, .map m' => by
    simp only [valueEq, Value.map.injEq]
    exact valueEntriesEq_iff m m'
  | .null, .str _ => by simp [valueEq]
  | .null, .int _ => by simp [valueEq]
  | .null, .bool _ => by simp [valueEq]
  | .null, .arr _ => by simp [valueEq]
  | .null, .map _ => by simp [valueEq]
  | .str _, .null => by simp [valueEq]
  | .str _, .int _ => by simp [valueEq]
  | .str _, .bool _ => by simp [valueEq]
  | .str _, .arr _ => by simp [valueEq]
  | .str _, .map _ => by simp [valueEq]
  | .int _, .null => by simp [valueEq]
  | .int _, .str _ => by simp [valueEq]
  | .int _, .bool _ => by simp [valueEq]
  | .int _, .arr _ => by simp [valueEq]
  | .int _, .map _ => by simp [valueEq]
  | .bool _, .null => by simp [valueEq]
  | .bool _, .str _ => by simp [valueEq]
  | .bool _, .int _ => by simp [valueEq]
  | .bool _, .arr _ => by simp [valueEq]
  | .bool _, .map _ => by simp [valueEq]
  | .arr _, .null => by simp [valueEq]
  | .arr _, .str _ => by simp [valueEq]
  | .arr _, .int _ => by simp [valueEq]
  | .arr _, .bool _ => by simp [valueEq]
  | .arr _, .map _ => by simp [valueEq]
  | .map _, .null => by simp [valueEq]
  | .map _, .str _ => by simp [valueEq]
  | .map _, .int _ => by simp [valueEq]
  | .map _, .bool _ => by simp [valueEq]
  | .map _, .arr _ => by simp [valueEq]

/-- `valueListEq` decides propositional equality of lists. -/
theorem valueListEq_iff : ∀ l l' : List Value, valueListEq l l' = true ↔ l = l'
  | [], [] => by simp [valueListEq]
  | v :: l, v' :: l' => by
    simp only [valueListEq, Bool.and_eq_true, List.cons.injEq]
    rw [valueEq_iff v v', valueListEq_iff l l']
  | [], _ :: _ => by simp [valueListEq]
  | _ :: _, [] => by simp [valueListEq]

/-- `valueEntriesEq` decides propositional equality of entry lists. -/
theorem valueEntriesEq_iff : ∀ m m' : List (String × Value),
    valueEntriesEq m m' = true ↔ m = m'
  | [], [] => by simp [valueEntriesEq]
  | (k, v) :: m, (k', v') :: m' => by
    simp only [valueEntriesEq, Bool.and_eq_true, List.cons.injEq, beq_iff_eq,
      Prod.mk.injEq]
    rw [valueEq_iff v v', valueEntriesEq_iff m m']
  | [], _ :: _ => by simp [valueEntriesEq]
  | _ :: _, [] => by simp [valueEntriesEq]
end


mutual
/-- `coreAttrEq` decides propositional equality. -/
theorem coreAttrEq_iff : ∀ a b : CoreAttribute, coreAttrEq a b = true ↔ a = b
  | .mk n t mv ce id p subs, .mk n' t' mv' ce' id' p' subs' => by
    simp only [coreAttrEq, Bool.and_eq_true, beq_iff_eq, CoreAttribute.mk.injEq]
    rw [coreAttrListEq_iff subs subs']
    tauto

/-- `coreAttrListEq` decides propositional equality of lists. -/
theorem coreAttrListEq_iff : ∀ as bs : List CoreAttribute,
    coreAttrListEq as bs = true ↔ as = bs
  | [], [] => by simp [coreAttrListEq]
  | a :: as, b :: bs => by
    simp only [coreAttrListEq, Bool.and_eq_true, List.cons.injEq]
    rw [coreAttrEq_iff a b, coreAttrListEq_iff as bs]
  | [], _ :: _ => by simp [coreAttrListEq]
  | _ :: _, [] => by simp [coreAttrListEq]
end


theorem fnv1aBytes_append (h : Nat) (xs ys : List Nat) :
    fnv1aBytes h (xs ++ ys) = fnv1aBytes (fnv1aBytes h xs) ys :=
  List.foldl_append _ _ _ _

theorem fnv1aBytes_nil (h : Nat) : fnv1aBytes h [] = h := rfl

/-- The hash loop threads the stream state exactly over the recursive byte
stream, for any starting state. -/
theorem computeHashGo_eq_streamGo (hasId : Bool) :
    ∀ (subs : List Property) (h : Nat),
      computeHashGo hasId h subs = fnv1aBytes h (streamGo hasId subs)
  | [], h => by simp [computeHashGo, streamGo, fnv1aBytes]
  | c :: rest, h => by
    rw [computeHashGo, streamGo]
    by_cases hskip : (hasId && !(attrOf c).identity) = true
    · rw [if_pos hskip, if_pos hskip, computeHashGo_eq_streamGo hasId rest h]
    · rw [if_neg hskip, if_neg hskip]
      show computeHashGo hasId
          (if isUnassigned c then fnv1aBytes h (strBytes (attrOf c).name)
           else fnv1aBytes (fnv1aBytes h (strBytes (attrOf c).name)) (le64 (hashOf c)))
          rest = _
      rw [computeHashGo_eq_streamGo hasId rest, fnv1aBytes_append]
      by_cases hu : isUnassigned c = true
      · rw [if_pos hu, if_pos hu, fnv1aBytes_append, fnv1aBytes_nil]
      · rw [if_neg hu, if_neg hu, fnv1aBytes_append]

/-- The recursive byte stream is the filtered, concatenated stream of
`specHashStream`. -/
theorem streamGo_eq_filtered (hasId : Bool) :
    ∀ subs : List Property,
      streamGo hasId subs =
        (if hasId then subs.filter (fun c => (attrOf c).identity) else subs).foldr
          (fun c acc =>
            strBytes (attrOf c).name ++
              (if isUnassigned c then [] else le64 (hashOf c)) ++ acc)
          []
  | [] => by cases hasId <;> simp [streamGo]
  | c :: rest => by
    rw [streamGo]
    cases hasId with
    | false =>
      simp only [Bool.false_and, if_neg Bool.false_ne_true, if_neg, List.foldr_cons]
      rw [streamGo_eq_filtered false rest]
      simp
    | true =>
      by_cases hid : (attrOf c).identity = true
      · simp only [hid, Bool.not_true, Bool.and_false, if_neg Bool.false_ne_true,
          if_pos rfl, List.filter_cons, if_pos hid, List.foldr_cons]
        rw [streamGo_eq_filtered true rest]
        simp
      · have hid' : (attrOf c).identity = false := Bool.not_eq_true _ |>.mp hid
        simp only [hid', Bool.not_false, Bool.and_true, if_pos rfl, List.filter_cons]
        rw [streamGo_eq_filtered true rest]
        simp [hid']

/-- C1: for every complex property, the hash is computed by iterating the
children in schema-declared order; if any sub-attribute is flagged
identity, every child whose attribute is not flagged identity is skipped
entirely; each remaining child feeds its attribute name's exact bytes into
a streaming 64-bit FNV-1a hash and, only if it is not unassigned, its own
`Hash()` value as 8 bytes little-endian; the node's hash is the final
stream digest (both the digest `computeHash` stores and the value `Hash()`
returns on a fresh cache). -/
theorem complex_hash_is_fnv1a_spec_stream :
    ∀ (a : CoreAttribute) (subs : List Property),
      computeHashVal a subs = fnv1aBytes fnvOffsetBasis (specHashStream a subs) ∧
      hashOf (.complex a subs 0) = fnv1aBytes fnvOffsetBasis (specHashStream a subs) := by
  intro a subs
  have key : computeHashVal a subs = fnv1aBytes fnvOffsetBasis (specHashStream a subs) := by
    rw [computeHashVal, specHashStream, computeHashGo_eq_streamGo,
      streamGo_eq_filtered]
  exact ⟨key, by rw [hashOf]; simpa using key⟩

/-- `coreAttrEq` is reflexive. -/
theorem coreAttrEq_refl (a : CoreAttribute) : coreAttrEq a a = true :=
  (coreAttrEq_iff a a).mpr rfl

/-- C2: two complex properties match exactly when their attributes are
schema-equal, their child counts are equal, and their `Hash()` values are
equal. -/
theorem complexMatches_iff :
    ∀ (a : CoreAttribute) (subs : List Property) (h : Nat)
      (a' : CoreAttribute) (subs' : List Property) (h' : Nat),
      complexMatches a subs h a' subs' h' = true ↔
        (a = a' ∧ subs.length = subs'.length ∧
          hashOf (.complex a subs h) = hashOf (.complex a' subs' h')) := by
  intro a subs h a' subs' h'
  rw [complexMatches]
  by_cases hce : coreAttrEq a a' = true
  · have ha : a = a' := (coreAttrEq_iff a a').mp hce
    by_cases hl : subs.length = subs'.length
    · simp [hce, hl, ha, coreAttrEq_refl]
    · simp [hce, hl, bne]
  · have ha : a ≠ a' := fun hh => hce ((coreAttrEq_iff a a').mpr hh)
    simp [Bool.not_eq_true _ |>.mp hce, ha]

/-- C7: every relational operator (`EqualsTo`, `StartsWith`, `EndsWith`,
`Contains`, `GreaterThan`, `LessThan`) on a complex property fails with the
"incompatible operation" error instead of producing a true/false verdict
(the `false` alongside is Go's zero value, not a verdict). -/
theorem complex_relational_ops_always_fail :
    ∀ (p : Property) (v : Value) (s : String),
      complexEqualsTo p v = (false, some (Err.internal "incompatible operation")) ∧
      complexStartsWith p s = (false, some (Err.internal "incompatible operation")) ∧
      complexEndsWith p s = (false, some (Err.internal "incompatible operation")) ∧
      complexContains p s = (false, some (Err.internal "incompatible operation")) ∧
      complexGreaterThan p v = (false, some (Err.internal "incompatible operation")) ∧
      complexLessThan p v = (false, some (Err.internal "incompatible operation")) :=
  fun _ _ _ => ⟨rfl, rfl, rfl, rfl, rfl, rfl⟩

/-- C8: `Replace(nil)` on any property, in any state, returns no error and
leaves the existing value entirely unchanged. -/
theorem replace_null_noop : ∀ p : Property, replaceProp p .null = (none, p) :=
  fun _ => rfl

/-- C10: `Add(nil)` on a complex property returns no error and leaves the
property completely unchanged — the same children and the same cached
hash, which is not recomputed. -/
theorem complex_add_null_unchanged :
    ∀ (a : CoreAttribute) (subs : List Property) (h : Nat),
      addProp (.complex a subs h) .null = (none, .complex a subs h) :=
  fun _ _ _ => rfl

mutual
/-- `Delete()` never fails on a property of this embedding. -/
theorem deleteProp_ok : ∀ p : Property, (deleteProp p).1 = none
  | .str a v t => rfl
  | .complex a subs h => by
    have hd := deleteList_ok subs
    simp only [deleteProp]
    rcases hdl : deleteList subs with ⟨e, subs'⟩
    rw [hdl] at hd
    cases e with
    | some err => exact absurd hd (by simp)
    | none => rfl

/-- `Delete()` never fails on a list of children. -/
theorem deleteList_ok : ∀ l : List Property, (deleteList l).1 = none
  | [] => rfl
  | c :: rest => by
    have hc := deleteProp_ok c
    have hr := deleteList_ok rest
    simp only [deleteList]
    rcases hdc : deleteProp c with ⟨e, c'⟩
    rw [hdc] at hc
    cases e with
    | some err => exact absurd hc (by simp)
    | none =>
      rcases hdr : deleteList rest with ⟨e', rest'⟩
      rw [hdr] at hr
      simp only []
      exact hr
end

/-- C4 (amended): for a complex property, `Replace(v)` with non-null `v` is
`Delete()` (which never fails here) followed by `Add(v)`, and any error the
`Add` step returns is propagated unchanged — the panic-to-`InvalidValue`
conversion applies only to panics, which no step of this model performs. -/
theorem complex_replace_propagates_add_error :
    ∀ (a : CoreAttribute) (subs : List Property) (h : Nat) (v : Value),
      v ≠ .null →
      (deleteProp (.complex a subs h)).1 = none ∧
      replaceProp (.complex a subs h) v =
        addProp (deleteProp (.complex a subs h)).2 v := by
  intro a subs h v hv
  refine ⟨deleteProp_ok _, ?_⟩
  have hrepl : replaceProp (.complex a subs h) v =
      match deleteProp (.complex a subs h) with
      | (some e, p') => (some e, p')
      | (none, p') => addProp p' v := by
    cases v with
    | null => exact absurd rfl hv
    | str s => rfl
    | int n => rfl
    | bool b => rfl
    | arr l => rfl
    | map m => rfl
  rw [hrepl]
  have hok := deleteProp_ok (Property.complex a subs h)
  rcases hd : deleteProp (.complex a subs h) with ⟨e, p'⟩
  rw [hd] at hok
  cases e with
  | some err => exact absurd hok (by simp)
  | none => rfl

/-- Witness for C4 (amended) at a concrete property and value. -/
theorem complex_replace_propagates_add_error_witness :
    (deleteProp (.complex exName (newPropList [exGiven, exFamily]) 0)).1 = none ∧
    replaceProp (.complex exName (newPropList [exGiven, exFamily]) 0) (.int 7) =
      addProp (deleteProp (.complex exName (newPropList [exGiven, exFamily]) 0)).2
        (.int 7) :=
  complex_replace_propagates_add_error exName (newPropList [exGiven, exFamily]) 0
    (.int 7) (fun hh => Value.noConfusion hh)

/-- C4 counterexample: replacing the `name` fixture with a mapping whose
`familyName` entry is an integer fails with the child's own error — an
`InvalidValue` naming the sub-attribute path "name.familyName", not this
property's path "name" — and leaves the property partially populated
(`givenName` was added before the failure), not emptied. -/
theorem complex_replace_error_names_child_path :
    (replaceProp (newProp exName)
        (.map [("givenName", .str "x"), ("familyName", .int 5)])).1 =
      some (.invalidValue "int64" "name.familyName") ∧
    "name.familyName" ≠ "name" ∧
    isUnassigned (replaceProp (newProp exName)
        (.map [("givenName", .str "x"), ("familyName", .int 5)])).2 = false := by
  refine ⟨rfl, by decide, rfl⟩

/-- C5 (amended): every non-null value that is not a mapping is rejected by
complex `Add` with an `InvalidValue` carrying the value's observed Go type
name and the attribute's path, the property unchanged. -/
theorem complex_add_non_mapping_invalid :
    ∀ (a : CoreAttribute) (subs : List Property) (h : Nat) (v : Value),
      v ≠ .null → isMappingV v = false →
      addProp (.complex a subs h) v =
        (some (.invalidValue (goTypeName v) a.path), .complex a subs h) := by
  intro a subs h v hn hm
  cases v with
  | null => exact absurd rfl hn
  | map m => exact absurd hm (by simp [isMappingV])
  | str s => rfl
  | int n => rfl
  | bool b => rfl
  | arr l => rfl

/-- Witness for C5 (amended) at a concrete property and value. -/
theorem complex_add_non_mapping_invalid_witness :
    addProp (.complex exName (newPropList [exGiven, exFamily]) 0) (.int 42) =
      (some (.invalidValue "int64" "name"),
        .complex exName (newPropList [exGiven, exFamily]) 0) :=
  complex_add_non_mapping_invalid exName (newPropList [exGiven, exFamily]) 0 (.int 42)
    (fun hh => Value.noConfusion hh) rfl

/-- C5 counterexample: nil is not a mapping, yet complex `Add(nil)` returns
no error at all — the claim's "every input value that is not a mapping" is
false at nil, which the nil-guard accepts before the mapping check. -/
theorem complex_add_null_returns_no_error :
    isMappingV .null = false ∧
    addProp (newProp exName) .null = (none, newProp exName) :=
  ⟨rfl, rfl⟩

/-- Key resolution depends only on the lower-cased key. -/
theorem lookupIdx_congr : ∀ (subs : List Property) (k k' : String),
    lowerStr k = lowerStr k' → lookupIdx subs k = lookupIdx subs k'
  | [], _, _, _ => rfl
  | c :: rest, k, k', h => by
    simp only [lookupIdx]
    rw [lookupIdx_congr rest k k' h, h]

/-- A resolved index designates a child whose attribute name matches the key
case-insensitively. -/
theorem lookupIdx_spec : ∀ (subs : List Property) (k : String) (i : Nat),
    lookupIdx subs k = some i →
    ∃ c, subs[i]? = some c ∧ lowerStr (attrOf c).name = lowerStr k
  | [], k, i, h => by simp [lookupIdx] at h
  | c :: rest, k, i, h => by
    simp only [lookupIdx] at h
    rcases hr : lookupIdx rest k with _ | j
    · rw [hr] at h
      by_cases hn : (lowerStr (attrOf c).name == lowerStr k) = true
      · rw [if_pos hn] at h
        cases h
        exact ⟨c, by simp, by simpa using hn⟩
      · rw [if_neg hn] at h
        cases h
    · rw [hr] at h
      cases h
      obtain ⟨c', hc', hn⟩ := lookupIdx_spec rest k j hr
      exact ⟨c', by simpa using hc', hn⟩

/-- C6: in the complex `Add` loop, a key is resolved against the children
case-insensitively (two keys with the same lower-casing are handled
identically); a key with no matching sub-attribute is silently skipped —
the loop continues as if the entry were absent with no error from it; and a
recognized key delegates its value to the resolved child's `Add`, whose
attribute name matches the key case-insensitively. -/
theorem complex_add_key_handling :
    ∀ (subs : List Property) (k k' : String) (v : Value)
      (rest : List (String × Value)),
      lowerStr k = lowerStr k' →
      (addEntries subs ((k, v) :: rest) = addEntries subs ((k', v) :: rest)) ∧
      (lookupIdx subs k = none →
        addEntries subs ((k, v) :: rest) = addEntries subs rest) ∧
      (∀ i, lookupIdx subs k = some i →
        ∃ c, subs[i]? = some c ∧ lowerStr (attrOf c).name = lowerStr k ∧
          addEntries subs ((k, v) :: rest) =
            (match addProp c v with
             | (some e, c') => (some e, subs.set i c')
             | (none, c') => addEntries (subs.set i c') rest)) := by
  intro subs k k' v rest hkk
  refine ⟨?_, ?_, ?_⟩
  · conv_lhs => rw [addEntries]
    conv_rhs => rw [addEntries]
    rw [lookupIdx_congr subs k k' hkk]
  · intro hn
    conv_lhs => rw [addEntries]
    rw [hn]
  · intro i hi
    obtain ⟨c, hc, hn⟩ := lookupIdx_spec subs k i hi
    refine ⟨c, hc, hn, ?_⟩
    conv_lhs => rw [addEntries]
    rw [hi]
    dsimp only
    rw [hc]

/-- Witness for C6 at the `name` fixture: the keys "FAMILYNAME" and
"FamilyName" resolve identically, and "FAMILYNAME" resolves to the
`familyName` child at index 1 and delegates to its `Add`. -/
theorem complex_add_key_handling_witness :
    (addEntries (newPropList [exGiven, exFamily]) [("FAMILYNAME", .str "King")] =
      addEntries (newPropList [exGiven, exFamily]) [("FamilyName", .str "King")]) ∧
    (∃ c, (newPropList [exGiven, exFamily])[1]? = some c ∧
      lowerStr (attrOf c).name = lowerStr "FAMILYNAME" ∧
      addEntries (newPropList [exGiven, exFamily]) [("FAMILYNAME", .str "King")] =
        (match addProp c (.str "King") with
         | (some e, c') => (some e, (newPropList [exGiven, exFamily]).set 1 c')
         | (none, c') =>
           addEntries ((newPropList [exGiven, exFamily]).set 1 c') [])) := by
  have h := complex_add_key_handling (newPropList [exGiven, exFamily])
    "FAMILYNAME" "FamilyName" (.str "King") [] rfl
  exact ⟨h.1, h.2.2 1 rfl⟩

/-- C9: `ToSingleValued` and `ToOptional` return the receiver itself when
the respective flag is already cleared, and otherwise a derivative
attribute with exactly that one flag cleared, every other field — the
sub-attribute sequence, canonical values, reference types and metadata
among them — carried over from the receiver unchanged; as pure functions
they never mutate the receiver (sharing by reference is modelled as the
fields holding the same values, shallow-copy and deep-copy being
indistinguishable in a value semantics). -/
theorem derived_forms_clear_single_flag :
    ∀ (n d t : String) (subs : List Attribute) (cv : List String)
      (mv rq ce : Bool) (mu re un : String) (rt : List String)
      (md : Option Metadata),
      (mv = false →
        toSingleValued (some (.mk n d t subs cv mv rq ce mu re un rt md)) =
          some (.mk n d t subs cv mv rq ce mu re un rt md)) ∧
      (mv = true →
        toSingleValued (some (.mk n d t subs cv mv rq ce mu re un rt md)) =
          some (.mk n d t subs cv false rq ce mu re un rt md)) ∧
      (rq = false →
        toOptional (some (.mk n d t subs cv mv rq ce mu re un rt md)) =
          some (.mk n d t subs cv mv rq ce mu re un rt md)) ∧
      (rq = true →
        toOptional (some (.mk n d t subs cv mv rq ce mu re un rt md)) =
          some (.mk n d t subs cv mv false ce mu re un rt md)) := by
  intro n d t subs cv mv rq ce mu re un rt md
  refine ⟨?_, ?_, ?_, ?_⟩ <;> intro h <;> subst h <;> simp [toSingleValued, toOptional]

/-- Witness for C9 at the multi-valued, required `emails` fixture. -/
theorem derived_forms_clear_single_flag_witness :
    toSingleValued (some exEmails) =
      some (.mk "emails" "Email addresses" "string" [] ["work", "home"] false true
        false "readWrite" "default" "none" [] (some ⟨false⟩)) ∧
    toOptional (some exEmails) =
      some (.mk "emails" "Email addresses" "string" [] ["work", "home"] true false
        false "readWrite" "default" "none" [] (some ⟨false⟩)) :=
  ⟨(derived_forms_clear_single_flag "emails" "Email addresses" "string" []
      ["work", "home"] true true false "readWrite" "default" "none" []
      (some ⟨false⟩)).2.1 rfl,
   (derived_forms_clear_single_flag "emails" "Email addresses" "string" []
      ["work", "home"] true true false "readWrite" "default" "none" []
      (some ⟨false⟩)).2.2.2 rfl⟩

/-- The factory maps `newProp` over the sub-attribute list. -/
theorem newPropList_getElem? : ∀ (subs : List CoreAttribute) (i : Nat),
    (newPropList subs)[i]? = (subs[i]?).map newProp
  | [], i => by simp [newPropList]
  | a :: rest, 0 => by simp [newPropList]
  | a :: rest, i + 1 => by
    simp only [newPropList, List.getElem?_cons_succ]
    exact newPropList_getElem? rest i

/-- The factory gives each property exactly its attribute. -/
theorem attrOf_newProp : ∀ a : CoreAttribute, attrOf (newProp a) = a := by
  intro a
  cases a with
  | mk n t mv ce id p subs =>
    rw [newProp]
    split <;> rfl

/-- `Add` never changes a property's attribute. -/
theorem addProp_attrOf : ∀ (p : Property) (v : Value),
    attrOf (addProp p v).2 = attrOf p := by
  intro p v
  cases p with
  | str a val t => cases v <;> rfl
  | complex a subs h =>
    cases v with
    | null => rfl
    | str s => rfl
    | int n => rfl
    | bool b => rfl
    | arr l => rfl
    | map m =>
      simp only [addProp]
      rcases hae : addEntries subs m with ⟨e, subs'⟩
      cases e <;> rfl

mutual
/-- `Raw()` of a fresh property is the empty raw value of its attribute. -/
theorem rawOf_newProp : ∀ a : CoreAttribute, rawOf (newProp a) = emptyRaw a
  | .mk n t mv ce id p subs => by
    rw [newProp, emptyRaw]
    by_cases hc : (t == "complex" && !mv) = true
    · rw [if_pos hc, if_pos hc, rawOf]
      rw [rawEntries_newPropList subs]
    · rw [if_neg hc, if_neg hc, rawOf]

/-- `Raw()` entries of fresh children are the empty raw entries. -/
theorem rawEntries_newPropList : ∀ subs : List CoreAttribute,
    rawEntries (newPropList subs) = emptyRawEntries subs
  | [] => rfl
  | a :: rest => by
    rw [newPropList, rawEntries, emptyRawEntries, rawOf_newProp a,
      rawEntries_newPropList rest, attrOf_newProp a]
end

/-- `lookupIdx` is unchanged by writing back a child with the same
attribute. -/
theorem lookupIdx_set : ∀ (cs : List Property) (i : Nat) (c c' : Property) (k : String),
    cs[i]? = some c → attrOf c' = attrOf c →
    lookupIdx (cs.set i c') k = lookupIdx cs k
  | [], i, c, c', k => by simp
  | c₀ :: rest, 0, c, c', k => by
    intro hget ha
    simp only [List.getElem?_cons_zero, Option.some.injEq] at hget
    subst hget
    simp only [List.set_cons_zero, lookupIdx, ha]
  | c₀ :: rest, i + 1, c, c', k => by
    intro hget ha
    simp only [List.getElem?_cons_succ] at hget
    simp only [List.set_cons_succ, lookupIdx,
      lookupIdx_set rest i c c' k hget ha]

/-- `entryFor` depends on the children only through `lookupIdx`. -/
theorem entryFor_congr : ∀ (cs cs' : List Property) (m : List (String × Value)) (j : Nat),
    (∀ k, lookupIdx cs' k = lookupIdx cs k) →
    entryFor cs' m j = entryFor cs m j
  | cs, cs', [], j, _ => rfl
  | cs, cs', (k, w) :: rest, j, hl => by
    simp only [entryFor, hl k, entryFor_congr cs cs' rest j hl]

/-- If no entry of `m` resolves to index `j`, `entryFor` yields none. -/
theorem entryFor_none : ∀ (cs : List Property) (m : List (String × Value)) (j : Nat),
    (∀ kv, kv ∈ m → lookupIdx cs kv.1 ≠ some j) →
    entryFor cs m j = none
  | cs, [], j, _ => rfl
  | cs, (k, w) :: rest, j, h => by
    simp only [entryFor]
    rw [if_neg (h (k, w) (by simp)), entryFor_none cs rest j
      (fun kv hkv => h kv (by simp [hkv]))]

/-- `recognizedKeysP` depends on the children only through `lookupIdx`. -/
theorem recognizedKeysP_congr : ∀ (cs cs' : List Property) (m : List (String × Value)),
    (∀ k, lookupIdx cs' k = lookupIdx cs k) →
    recognizedKeysP cs' m = recognizedKeysP cs m
  | cs, cs', [], _ => rfl
  | cs, cs', (k, w) :: rest, hl => by
    have htail := recognizedKeysP_congr cs cs' rest hl
    simp only [recognizedKeysP, List.filter_cons] at *
    rw [hl k]
    cases (lookupIdx cs k).isSome <;> simp_all

/-- A recognized entry's lower-cased key occurs in `recognizedKeysP`. -/
theorem mem_recognizedKeysP (cs : List Property) (m : List (String × Value))
    (kv : String × Value) (hkv : kv ∈ m) (hs : (lookupIdx cs kv.1).isSome = true) :
    lowerStr kv.1 ∈ recognizedKeysP cs m := by
  simp only [recognizedKeysP, List.mem_map, List.mem_filter]
  exact ⟨kv, ⟨hkv, hs⟩, rfl⟩

/-- Head decomposition of `nodupBool`. -/
theorem nodupBool_cons (x : String) (l : List String)
    (h : nodupBool (x :: l) = true) : x ∉ l ∧ nodupBool l = true := by
  simp only [nodupBool, Bool.and_eq_true, Bool.not_eq_true'] at h
  refine ⟨fun hmem => ?_, h.2⟩
  have : l.contains x = true := List.elem_iff.mpr hmem
  rw [h.1] at this
  exact Bool.noConfusion this

/-- Main characterization of the complex `Add` loop over a list of
children: when every delegated child `Add` succeeds and the recognized keys
are pairwise distinct after lower-casing, the loop succeeds and the final
child at each index is the original child updated by the unique entry that
resolves to it, or the original child when no entry does. -/
theorem addEntries_char :
    ∀ (m : List (String × Value)) (cs : List Property),
      (∀ kv, kv ∈ m → ∀ i c, lookupIdx cs kv.1 = some i → cs[i]? = some c →
        (addProp c kv.2).1 = none) →
      nodupBool (recognizedKeysP cs m) = true →
      (addEntries cs m).1 = none ∧
      (∀ j, ((addEntries cs m).2)[j]? =
        (match entryFor cs m j with
         | some w => Option.map (fun c => (addProp c w).2) cs[j]?
         | none => cs[j]?))
  | [], cs, _, _ => by
    refine ⟨rfl, fun j => ?_⟩
    simp [addEntries, entryFor]
  | (k, w) :: rest, cs, hsucc, hnodup => by
    rcases hlk : lookupIdx cs k with _ | i
    · -- unknown key: skipped
      have hrec : recognizedKeysP cs ((k, w) :: rest) = recognizedKeysP cs rest := by
        simp [recognizedKeysP, List.filter_cons, hlk]
      rw [hrec] at hnodup
      have hsucc' : ∀ kv, kv ∈ rest → ∀ i c, lookupIdx cs kv.1 = some i →
          cs[i]? = some c → (addProp c kv.2).1 = none :=
        fun kv hkv => hsucc kv (by simp [hkv])
      obtain ⟨h1, h2⟩ := addEntries_char rest cs hsucc' hnodup
      have heq : addEntries cs ((k, w) :: rest) = addEntries cs rest := by
        rw [addEntries, hlk]
      refine ⟨by rw [heq]; exact h1, fun j => ?_⟩
      rw [heq, h2 j, entryFor, if_neg (by simp [hlk])]
    · -- recognized key: delegate to child i
      obtain ⟨c, hc, hname⟩ := lookupIdx_spec cs k i hlk
      have hadd1 : (addProp c w).1 = none := hsucc (k, w) (by simp) i c hlk hc
      rcases haddr : addProp c w with ⟨e, c'⟩
      rw [haddr] at hadd1
      subst hadd1
      have hattr : attrOf c' = attrOf c := by
        have := addProp_attrOf c w
        rw [haddr] at this
        exact this
      have hstab : ∀ k', lookupIdx (cs.set i c') k' = lookupIdx cs k' :=
        fun k' => lookupIdx_set cs i c c' k' hc hattr
      have hrec : recognizedKeysP cs ((k, w) :: rest) =
          lowerStr k :: recognizedKeysP cs rest := by
        simp [recognizedKeysP, List.filter_cons, hlk]
      rw [hrec] at hnodup
      obtain ⟨hknotin, hnodup'⟩ := nodupBool_cons _ _ hnodup
      -- no entry of rest resolves to index i
      have hnoi : ∀ kv, kv ∈ rest → lookupIdx cs kv.1 ≠ some i := by
        intro kv hkv hres
        obtain ⟨c₂, hc₂, hname₂⟩ := lookupIdx_spec cs kv.1 i hres
        rw [hc] at hc₂
        cases hc₂
        apply hknotin
        have : lowerStr kv.1 = lowerStr k := by rw [← hname₂, hname]
        rw [← this]
        exact mem_recognizedKeysP cs rest kv hkv (by rw [hres]; rfl)
      have hilt : i < cs.length := by
        rcases List.getElem?_eq_some.mp hc with ⟨hlt, _⟩
        exact hlt
      have hsucc' : ∀ kv, kv ∈ rest → ∀ i' c'', lookupIdx (cs.set i c') kv.1 = some i' →
          (cs.set i c')[i']? = some c'' → (addProp c'' kv.2).1 = none := by
        intro kv hkv i' c'' hres hget
        rw [hstab kv.1] at hres
        have hne : i ≠ i' := fun heq => hnoi kv hkv (by rw [← heq] at hres; exact hres)
        rw [List.getElem?_set_ne hne] at hget
        exact hsucc kv (by simp [hkv]) i' c'' hres hget
      have hnodup'' : nodupBool (recognizedKeysP (cs.set i c') rest) = true := by
        rw [recognizedKeysP_congr cs (cs.set i c') rest hstab]
        exact hnodup'
      obtain ⟨h1, h2⟩ := addEntries_char rest (cs.set i c') hsucc' hnodup''
      have heq : addEntries cs ((k, w) :: rest) = addEntries (cs.set i c') rest := by
        simp only [addEntries, hlk, hc, haddr]
      refine ⟨by rw [heq]; exact h1, fun j => ?_⟩
      rw [heq, h2 j, entryFor_congr cs (cs.set i c') rest j hstab]
      by_cases hji : j = i
      · subst hji
        rw [entryFor, if_pos hlk, entryFor_none cs rest j hnoi,
          List.getElem?_set_eq_of_lt c' hilt, hc]
        simp [haddr]
      · have hij : i ≠ j := fun hh => hji hh.symm
        have hcond : ¬(lookupIdx cs k = some j) := by
          rw [hlk]
          simp only [Option.some.injEq]
          exact fun hh => hji hh.symm
        rw [entryFor, if_neg hcond, List.getElem?_set_ne hij]

/-- An element reached through `getElem?` is a member. -/
theorem mem_of_getElem?' {α : Type} {l : List α} {i : Nat} {a : α}
    (h : l[i]? = some a) : a ∈ l := by
  obtain ⟨hlt, rfl⟩ := List.getElem?_eq_some.mp h
  exact List.getElem_mem hlt

/-- The lower-cased name of an indexed sub-attribute occurs in `lowNames`. -/
theorem lowName_mem : ∀ (subs : List CoreAttribute) (j : Nat) (sub : CoreAttribute),
    subs[j]? = some sub → lowerStr sub.name ∈ lowNames subs := by
  intro subs j sub h
  simp only [lowNames, List.mem_map]
  exact ⟨sub, mem_of_getElem?' h, rfl⟩

/-- With no matching name, `lookupIdx` over fresh children resolves
nothing. -/
theorem lookupIdx_newPropList_none : ∀ (subs : List CoreAttribute) (k : String),
    lowerStr k ∉ lowNames subs → lookupIdx (newPropList subs) k = none
  | [], k, _ => rfl
  | sub :: rest, k, h => by
    have hhead : lowerStr sub.name ≠ lowerStr k := by
      intro hh
      exact h (by simp [lowNames, hh.symm])
    have htail : lowerStr k ∉ lowNames rest := by
      intro hh
      exact h (by simp [lowNames] at hh ⊢; right; exact hh)
    rw [newPropList, lookupIdx, lookupIdx_newPropList_none rest k htail,
      attrOf_newProp, if_neg (by simpa using hhead)]

/-- Under pairwise-distinct lower-cased names, a name match at index `j`
makes `lookupIdx` over fresh children resolve exactly to `j`. -/
theorem lookupIdx_newPropList_unique :
    ∀ (subs : List CoreAttribute) (j : Nat) (sub : CoreAttribute) (k : String),
      nodupBool (lowNames subs) = true → subs[j]? = some sub →
      lowerStr k = lowerStr sub.name →
      lookupIdx (newPropList subs) k = some j
  | [], j, sub, k, _, hget, _ => by simp at hget
  | s :: rest, 0, sub, k, hnodup, hget, hk => by
    simp only [List.getElem?_cons_zero, Option.some.injEq] at hget
    subst hget
    obtain ⟨hnotin, _⟩ := nodupBool_cons _ _ (by simpa [lowNames] using hnodup)
    have : lowerStr k ∉ lowNames rest := by rw [hk]; exact hnotin
    rw [newPropList, lookupIdx, lookupIdx_newPropList_none rest k this,
      attrOf_newProp, if_pos (by simp [hk])]
  | s :: rest, j + 1, sub, k, hnodup, hget, hk => by
    simp only [List.getElem?_cons_succ] at hget
    obtain ⟨_, hnodup'⟩ := nodupBool_cons _ _ (by simpa [lowNames] using hnodup)
    rw [newPropList, lookupIdx,
      lookupIdx_newPropList_unique rest j sub k hnodup' hget hk]

/-- Resolution over fresh children reaches an index whose sub-attribute's
name matches the key case-insensitively. -/
theorem lookupIdx_newPropList_name :
    ∀ (subs : List CoreAttribute) (k : String) (i : Nat),
      lookupIdx (newPropList subs) k = some i →
      ∃ sub, subs[i]? = some sub ∧ lowerStr sub.name = lowerStr k := by
  intro subs k i h
  obtain ⟨c, hc, hname⟩ := lookupIdx_spec (newPropList subs) k i h
  rw [newPropList_getElem?] at hc
  rcases hs : subs[i]? with _ | sub
  · rw [hs] at hc; cases hc
  · rw [hs] at hc
    simp only [Option.map_some', Option.some.injEq] at hc
    subst hc
    exact ⟨sub, rfl, by rw [← hname, attrOf_newProp]⟩

/-- Under pairwise-distinct lower-cased names, `findAttr` finds the
sub-attribute whose name matches at index `j`. -/
theorem findAttr_of_nodup :
    ∀ (subs : List CoreAttribute) (j : Nat) (sub : CoreAttribute) (k : String),
      nodupBool (lowNames subs) = true → subs[j]? = some sub →
      lowerStr k = lowerStr sub.name →
      findAttr subs k = some sub
  | [], j, sub, k, _, hget, _ => by simp at hget
  | s :: rest, 0, sub, k, hnodup, hget, hk => by
    simp only [List.getElem?_cons_zero, Option.some.injEq] at hget
    subst hget
    have hb : (lowerStr s.name == lowerStr k) = true := by simp [hk]
    rw [findAttr, List.find?_cons, hb]
  | s :: rest, j + 1, sub, k, hnodup, hget, hk => by
    simp only [List.getElem?_cons_succ] at hget
    obtain ⟨hnotin, hnodup'⟩ := nodupBool_cons _ _ (by simpa [lowNames] using hnodup)
    have hmem : lowerStr sub.name ∈ lowNames rest := lowName_mem rest j sub hget
    have hne : ¬(lowerStr s.name == lowerStr k) = true := by
      simp only [beq_iff_eq]
      intro hh
      apply hnotin
      rw [hh, hk]
      exact hmem
    have hb : (lowerStr s.name == lowerStr k) = false := by
      simpa using hne
    rw [findAttr, List.find?_cons, hb]
    exact findAttr_of_nodup rest j sub k hnodup' hget hk

/-- Resolution over fresh children succeeds exactly when `findAttr`
succeeds. -/
theorem lookupIdx_isSome_eq_findAttr :
    ∀ (subs : List CoreAttribute) (k : String),
      (lookupIdx (newPropList subs) k).isSome = (findAttr subs k).isSome
  | [], k => rfl
  | s :: rest, k => by
    have ih := lookupIdx_isSome_eq_findAttr rest k
    rw [findAttr] at ih ⊢
    rw [newPropList, lookupIdx, List.find?_cons, attrOf_newProp]
    rcases hb : (lowerStr s.name == lowerStr k) with _ | _ <;>
      rcases hl : lookupIdx (newPropList rest) k with _ | i <;>
        rw [hl] at ih <;> simp_all

/-- Over fresh children, the recognized-key lists of the loop and of the
schema coincide. -/
theorem recognizedKeysP_eq_recognizedKeys :
    ∀ (subs : List CoreAttribute) (m : List (String × Value)),
      recognizedKeysP (newPropList subs) m = recognizedKeys subs m
  | subs, [] => rfl
  | subs, (k, w) :: rest => by
    have ih := recognizedKeysP_eq_recognizedKeys subs rest
    simp only [recognizedKeysP, recognizedKeys, List.filter_cons] at ih ⊢
    rw [lookupIdx_isSome_eq_findAttr subs k]
    rcases (findAttr subs k).isSome with _ | _ <;> simp_all

/-- Over fresh children with pairwise-distinct lower-cased names, the
loop's entry resolution to index `j` agrees with the spec's entry
resolution against the sub-attribute at `j`. -/
theorem entryFor_eq_resolveEntry :
    ∀ (m : List (String × Value)) (subs : List CoreAttribute) (j : Nat)
      (sub : CoreAttribute),
      nodupBool (lowNames subs) = true → subs[j]? = some sub →
      entryFor (newPropList subs) m j = resolveEntry m sub
  | [], subs, j, sub, _, _ => rfl
  | (k, w) :: rest, subs, j, sub, hnodup, hget => by
    have ih := entryFor_eq_resolveEntry rest subs j sub hnodup hget
    rw [entryFor, resolveEntry, List.find?_cons]
    by_cases hk : lowerStr k = lowerStr sub.name
    · rw [if_pos (lookupIdx_newPropList_unique subs j sub k hnodup hget hk)]
      have hb : (lowerStr k == lowerStr sub.name) = true := by simp [hk]
      rw [hb]
      rfl
    · have hcond : ¬(lookupIdx (newPropList subs) k = some j) := by
        intro hres
        obtain ⟨sub', hget', hname'⟩ := lookupIdx_newPropList_name subs k j hres
        rw [hget] at hget'
        cases hget'
        exact hk hname'.symm
      have hb : (lowerStr k == lowerStr sub.name) = false := by
        simpa using hk
      rw [if_neg hcond, hb]
      rw [resolveEntry] at ih
      exact ih

/-- A recognized entry of a well-formed mapping carries a well-formed value
for its sub-attribute. -/
theorem entriesWF_mem :
    ∀ (subs : List CoreAttribute) (m : List (String × Value)) (k : String) (w : Value),
      entriesWF subs m = true → (k, w) ∈ m → ∀ sub, findAttr subs k = some sub →
      wellFormed sub w = true
  | subs, [], k, w, _, hmem => by cases hmem
  | subs, (k', w') :: rest, k, w, hwf, hmem => by
    intro sub hfind
    simp only [entriesWF, Bool.and_eq_true] at hwf
    rcases List.mem_cons.mp hmem with heq | hmem'
    · cases heq
      have := hwf.1
      rw [hfind] at this
      exact this
    · exact entriesWF_mem subs rest k w hwf.2 hmem' sub hfind

/-- Members of a well-formed sub-attribute list are well-formed. -/
theorem attrListWF_mem :
    ∀ (subs : List CoreAttribute) (sub : CoreAttribute),
      attrListWF subs = true → sub ∈ subs → attrWF sub = true
  | [], sub, _, hmem => by cases hmem
  | s :: rest, sub, hwf, hmem => by
    simp only [attrListWF, Bool.and_eq_true] at hwf
    rcases List.mem_cons.mp hmem with heq | hmem'
    · cases heq; exact hwf.1
    · exact attrListWF_mem rest sub hwf.2 hmem'

/-- Assembling `Raw()` entries from the per-index characterization of the
final children. -/
theorem rawEntries_from_char :
    ∀ (subs : List CoreAttribute) (cs' : List Property) (m : List (String × Value)),
      (∀ j : Nat, cs'[j]? =
        (match subs[j]? with
         | none => none
         | some sub =>
           (match resolveEntry m sub with
            | some w => some (addProp (newProp sub) w).2
            | none => some (newProp sub)))) →
      (∀ sub w, sub ∈ subs → resolveEntry m sub = some w →
        rawOf (addProp (newProp sub) w).2 = specNormalize sub w) →
      rawEntries cs' = normEntries subs m
  | [], cs', m, hchar, _ => by
    have h0 := hchar 0
    simp only [List.getElem?_nil] at h0
    cases cs' with
    | nil => rfl
    | cons c tail => simp at h0
  | sub :: rest, cs', m, hchar, hraw => by
    have h0 := hchar 0
    simp only [List.getElem?_cons_zero] at h0
    cases cs' with
    | nil =>
      rcases hres : resolveEntry m sub with _ | w <;> rw [hres] at h0 <;> simp at h0
    | cons c tail =>
      simp only [List.getElem?_cons_zero] at h0
      have htail : rawEntries tail = normEntries rest m :=
        rawEntries_from_char rest tail m
          (fun j => by
            have hj := hchar (j + 1)
            simpa using hj)
          (fun sub' w hm hr => hraw sub' w (by simp [hm]) hr)
      rw [rawEntries, normEntries, htail]
      rcases hres : resolveEntry m sub with _ | w
      · rw [hres] at h0
        simp only [Option.some.injEq] at h0
        subst h0
        rw [attrOf_newProp, rawOf_newProp]
      · rw [hres] at h0
        simp only [Option.some.injEq] at h0
        subst h0
        have hattr : attrOf (addProp (newProp sub) w).2 = sub := by
          rw [addProp_attrOf, attrOf_newProp]
        rw [hattr, hraw sub w (by simp) hres]

mutual
/-- Round-trip on a freshly constructed property: a well-formed value
accepted by `Add` is reproduced by `Raw()` up to the spec's normalization
(canonical key names, unknown keys dropped, unsupplied children null). -/
theorem freshRoundtrip : ∀ (a : CoreAttribute) (v : Value),
    attrWF a = true → wellFormed a v = true →
    (addProp (newProp a) v).1 = none ∧
    rawOf (addProp (newProp a) v).2 = specNormalize a v
  | .mk n t mv ce id p subs, v => by
    intro hattr hv
    rw [attrWF] at hattr
    simp only [Bool.and_eq_true, Bool.not_eq_true'] at hattr
    obtain ⟨hmv, hrest⟩ := hattr
    cases v with
    | null => simp [wellFormed] at hv
    | int n' => simp [wellFormed] at hv
    | bool b => simp [wellFormed] at hv
    | arr l => simp [wellFormed] at hv
    | str s =>
      rw [wellFormed] at hv
      simp only [CoreAttribute.typ, beq_iff_eq] at hv
      subst hv
      exact ⟨rfl, rfl⟩
    | map m =>
      rw [wellFormed] at hv
      simp only [CoreAttribute.typ, CoreAttribute.subAttributes, Bool.and_eq_true,
        beq_iff_eq] at hv
      obtain ⟨⟨ht, hwfm⟩, hnodupKeys⟩ := hv
      subst ht
      simp only [if_pos, beq_self_eq_true, if_true, Bool.and_eq_true] at hrest
      obtain ⟨hsubWF, hnodupNames⟩ := hrest
      have hnodupNames' : nodupBool (lowNames subs) = true := hnodupNames
      rw [newProp, if_pos (by simp [hmv])]
      have hsucc : ∀ kv, kv ∈ m → ∀ i c,
          lookupIdx (newPropList subs) kv.1 = some i →
          (newPropList subs)[i]? = some c → (addProp c kv.2).1 = none := by
        intro kv hkv i c hres hget
        obtain ⟨sub, hsub, hname⟩ := lookupIdx_newPropList_name subs kv.1 i hres
        rw [newPropList_getElem?, hsub] at hget
        simp only [Option.map_some', Option.some.injEq] at hget
        subst hget
        have hfind : findAttr subs kv.1 = some sub :=
          findAttr_of_nodup subs i sub kv.1 hnodupNames' hsub hname.symm
        have hwfsub : wellFormed sub kv.2 = true := by
          rcases kv with ⟨k', w'⟩
          exact entriesWF_mem subs m k' w' hwfm hkv sub hfind
        have hA : attrWF sub = true :=
          attrListWF_mem subs sub hsubWF (mem_of_getElem?' hsub)
        exact (freshRoundtripList subs sub (mem_of_getElem?' hsub) kv.2 hA hwfsub).1
      have hnodupP : nodupBool (recognizedKeysP (newPropList subs) m) = true := by
        rw [recognizedKeysP_eq_recognizedKeys]
        exact hnodupKeys
      obtain ⟨h1, h2⟩ := addEntries_char m (newPropList subs) hsucc hnodupP
      rcases hae : addEntries (newPropList subs) m with ⟨e, cs'⟩
      rw [hae] at h1 h2
      subst h1
      have hstep : addProp
          (.complex (CoreAttribute.mk n "complex" mv ce id p subs) (newPropList subs) 0)
          (.map m) =
          (none, .complex (CoreAttribute.mk n "complex" mv ce id p subs) cs'
            (computeHashVal (CoreAttribute.mk n "complex" mv ce id p subs) cs')) := by
        simp only [addProp, hae]
      rw [hstep]
      refine ⟨rfl, ?_⟩
      rw [rawOf, specNormalize]
      rw [if_pos (by simp)]
      have hraw' : ∀ sub w, sub ∈ subs → resolveEntry m sub = some w →
          rawOf (addProp (newProp sub) w).2 = specNormalize sub w := by
        intro sub w hmem hres
        obtain ⟨j, hjlt, hjget⟩ := List.getElem_of_mem hmem
        have hsub : subs[j]? = some sub := by
          rw [List.getElem?_eq_getElem hjlt, hjget]
        obtain ⟨kv, hfindkv, hkv2⟩ := Option.map_eq_some'.mp hres
        have hkvmem : kv ∈ m := List.mem_of_find?_eq_some hfindkv
        have hkvpred := List.find?_some hfindkv
        have hfind : findAttr subs kv.1 = some sub :=
          findAttr_of_nodup subs j sub kv.1 hnodupNames' hsub
            (by simpa using hkvpred)
        have hwfsub : wellFormed sub w = true := by
          rcases kv with ⟨k', w'⟩
          cases hkv2
          exact entriesWF_mem subs m k' w' hwfm hkvmem sub hfind
        have hA : attrWF sub = true := attrListWF_mem subs sub hsubWF hmem
        exact (freshRoundtripList subs sub hmem w hA hwfsub).2
      have hchar' : ∀ j : Nat, cs'[j]? =
          (match subs[j]? with
           | none => none
           | some sub =>
             (match resolveEntry m sub with
              | some w => some (addProp (newProp sub) w).2
              | none => some (newProp sub))) := by
        intro j
        have hj := h2 j
        rcases hs : subs[j]? with _ | sub
        · have hcs : (newPropList subs)[j]? = none := by
            rw [newPropList_getElem?, hs]; rfl
          rw [hj, hcs]
          rcases entryFor (newPropList subs) m j with _ | w <;> rfl
        · have hcs : (newPropList subs)[j]? = some (newProp sub) := by
            rw [newPropList_getElem?, hs]; rfl
          rw [hj, hcs, entryFor_eq_resolveEntry m subs j sub hnodupNames' hs]
          rcases hres : resolveEntry m sub with _ | w <;> simp [hres]
      rw [rawEntries_from_char subs cs' m hchar' hraw']

/-- Round-trip on fresh properties, lifted to members of a sub-attribute
list. -/
theorem freshRoundtripList : ∀ (subs : List CoreAttribute) (sub : CoreAttribute),
    sub ∈ subs → ∀ v, attrWF sub = true → wellFormed sub v = true →
    (addProp (newProp sub) v).1 = none ∧
    rawOf (addProp (newProp sub) v).2 = specNormalize sub v
  | [], sub, hmem => by cases hmem
  | s :: rest, sub, hmem => by
    intro v hA hwf
    rcases List.mem_cons.mp hmem with heq | hmem'
    · cases heq
      exact freshRoundtrip _ v hA hwf
    · exact freshRoundtripList rest sub hmem' v hA hwf
end

/-- C3 (amended): for every well-formed generic value accepted by a
freshly-constructed property's `Add`, the sequence `Add(v)` then `Raw()`
succeeds and reproduces a value equal to `v` under the protocol's
normalization: scalars and keys preserved (keys under their declared
names, matched case-insensitively), unknown keys of a complex mapping
dropped, unsupplied children null. -/
theorem fresh_property_roundtrip :
    ∀ (a : CoreAttribute) (v : Value),
      attrWF a = true → wellFormed a v = true →
      (addProp (newProp a) v).1 = none ∧
      rawOf (addProp (newProp a) v).2 = specNormalize a v :=
  freshRoundtrip

/-- Witness for C3 (amended): adding a mapping with a case-varied key and
an unknown key to a fresh `name` property round-trips to its
normalization. -/
theorem fresh_property_roundtrip_witness :
    (addProp (newProp exName) (.map [("GIVENNAME", .str "Ada"), ("zz", .int 9)])).1 =
      none ∧
    rawOf (addProp (newProp exName)
        (.map [("GIVENNAME", .str "Ada"), ("zz", .int 9)])).2 =
      specNormalize exName (.map [("GIVENNAME", .str "Ada"), ("zz", .int 9)]) :=
  fresh_property_roundtrip exName (.map [("GIVENNAME", .str "Ada"), ("zz", .int 9)])
    (by decide) (by decide)

/-- C3 counterexample: on a property that already holds a value, `Add` then
`Raw()` does not reproduce the added value — adding
`{"familyName":"King"}` to a `name` property holding `givenName = "Ada"`
yields a raw value that still carries `"Ada"`, differing from the added
mapping (and from its normalization) at the `givenName` key. -/
theorem roundtrip_fails_on_reused_property :
    wellFormed exName (.map [("familyName", .str "King")]) = true ∧
    (addProp (addProp (newProp exName) (.map [("givenName", .str "Ada")])).2
        (.map [("familyName", .str "King")])).1 = none ∧
    rawOf (addProp (addProp (newProp exName) (.map [("givenName", .str "Ada")])).2
        (.map [("familyName", .str "King")])).2 =
      .map [("givenName", .str "Ada"), ("familyName", .str "King")] ∧
    specNormalize exName (.map [("familyName", .str "King")]) =
      .map [("givenName", .null), ("familyName", .str "King")] ∧
    rawOf (addProp (addProp (newProp exName) (.map [("givenName", .str "Ada")])).2
        (.map [("familyName", .str "King")])).2 ≠
      specNormalize exName (.map [("familyName", .str "King")]) := by
  refine ⟨by decide, by decide, rfl, rfl, ?_⟩
  intro h
  have ht := (valueEq_iff _ _).mpr h
  have hf : valueEq
      (rawOf (addProp (addProp (newProp exName) (.map [("givenName", .str "Ada")])).2
        (.map [("familyName", .str "King")])).2)
      (specNormalize exName (.map [("familyName", .str "King")])) = false := by decide
  rw [hf] at ht
  exact Bool.noConfusion ht
